import Mathlib

/-
Shallow embedding of the coloursum line-formatting core
(src/base_line.rs, src/ansi_coloured_line.rs, src/ecoji_line.rs,
src/onepassword_line.rs).

Lines are modelled at the byte level (List Nat, each entry one UTF-8 byte)
for the classifier, which operates on Rust byte offsets, and at the
character level (List Char, Unicode scalar values as produced by Rust's
str::chars) for the digest formatters.
-/

/-- Whether `pat` occurs in `l` starting at byte offset `o`
(the match semantics of Rust's `str::find` / `str::rfind` with a
string pattern). -/
def matchesAt (l pat : List Nat) (o : Nat) : Bool :=
  decide ((l.drop o).take pat.length = pat)

/-- Byte offset of the first occurrence of `pat` in `l`,
modelling Rust's `str::find` with a string pattern. -/
def findSub (l pat : List Nat) : Option Nat :=
  match l with
  | [] => if matchesAt [] pat 0 then some 0 else none
  | b :: rest =>
    if matchesAt (b :: rest) pat 0 then some 0
    else (findSub rest pat).map (· + 1)

/-- Byte offset of the last occurrence of `pat` in `l`,
modelling Rust's `str::rfind` with a string pattern. -/
def rfindSub (l pat : List Nat) : Option Nat :=
  match l with
  | [] => if matchesAt [] pat 0 then some 0 else none
  | b :: rest =>
    match rfindSub rest pat with
    | some m => some (m + 1)
    | none => if matchesAt (b :: rest) pat 0 then some 0 else none

/-- The UTF-8 bytes of the needle `" = "` (space, equals, space). -/
def bsdNeedle : List Nat := [32, 61, 32]

/-- The UTF-8 bytes of the needle `"  "` (two consecutive spaces). -/
def doubleSpace : List Nat := [32, 32]

/-- Source: `find_bsd_tag_line` in src/base_line.rs —
`line.rfind(" = ").map(|offset| offset + needle.len())` with needle
length 3. -/
def find_bsd_tag_line (line : List Nat) : Option Nat :=
  (rfindSub line bsdNeedle).map (· + 3)

/-- Source: `find_sum_prefixed_line` in src/base_line.rs —
`line.find("  ")`. -/
def find_sum_prefixed_line (line : List Nat) : Option Nat :=
  findSub line doubleSpace

/-- Source: `struct FormattableLine` in src/base_line.rs. -/
structure FormattableLine where
  contents : List Nat
  formattable_start : Option Nat
  formattable_end : Option Nat
  deriving Repr, DecidableEq

/-- Source: `impl From<String> for FormattableLine` in src/base_line.rs:
try `find_bsd_tag_line` first, else `find_sum_prefixed_line`, else
leave both offsets unset. -/
def FormattableLine.fromContents (contents : List Nat) : FormattableLine :=
  match find_bsd_tag_line contents with
  | some suffix_start =>
    { contents := contents, formattable_start := some suffix_start, formattable_end := none }
  | none =>
    match find_sum_prefixed_line contents with
    | some prefix_end =>
      { contents := contents, formattable_start := none, formattable_end := some prefix_end }
    | none =>
      { contents := contents, formattable_start := none, formattable_end := none }

/-- Source: `Line::to_formatted` in src/base_line.rs, generic over the
variant's `format_hash` (here `fmt`, acting on the sliced bytes):
passthrough when both offsets are unset, otherwise
`contents[..slice_start] ++ fmt(contents[slice_start..slice_end]) ++
contents[slice_end..]` with `slice_start = formattable_start.unwrap_or(0)`
and `slice_end = formattable_end.unwrap_or(contents.len())`. -/
def to_formatted (fmt : List Nat → List Nat) (line : FormattableLine) : List Nat :=
  if line.formattable_start.isNone && line.formattable_end.isNone then
    line.contents
  else
    let slice_start := line.formattable_start.getD 0
    let slice_end := line.formattable_end.getD line.contents.length
    line.contents.take slice_start
      ++ fmt ((line.contents.drop slice_start).take (slice_end - slice_start))
      ++ line.contents.drop slice_end

/-- UTF-8 encoding of one Unicode scalar value (the encoding Rust's
`String` stores, determining its byte offsets). -/
def utf8Bytes (c : Char) : List Nat :=
  let n := c.toNat
  if n < 128 then [n]
  else if n < 2048 then [192 + n / 64, 128 + n % 64]
  else if n < 65536 then [224 + n / 4096, 128 + n / 64 % 64, 128 + n % 64]
  else [240 + n / 262144, 128 + n / 4096 % 64, 128 + n / 64 % 64, 128 + n % 64]

/-- UTF-8 encoding of a character sequence: the byte representation a
Rust `String` holds for it. -/
def encodeUtf8 (s : List Char) : List Nat :=
  (s.map utf8Bytes).flatten

/-- A UTF-8 continuation byte (the bytes that are not character-boundary
positions in Rust's `str::is_char_boundary`). -/
def contByte (b : Nat) : Prop := 128 ≤ b ∧ b < 192

instance (b : Nat) : Decidable (contByte b) := by
  unfold contByte
  infer_instance

/-- Byte position `p` of `bs` is a character boundary in the sense of
Rust's `str::is_char_boundary`: either the end of the string or a
position holding a non-continuation byte. -/
def isCharBoundary (bs : List Nat) (p : Nat) : Prop :=
  p = bs.length ∨ ∃ b, bs[p]? = some b ∧ ¬contByte b

/-- Occurrence of `pat` at `o` in `l`, with no occurrence at any later
offset (the offset Rust's `rfind` reports). -/
def LastOcc (l pat : List Nat) (o : Nat) : Prop :=
  matchesAt l pat o = true ∧
    ∀ o2, o2 < l.length + 1 → o < o2 → matchesAt l pat o2 = false

/-- Occurrence of `pat` at `o` in `l`, with no occurrence at any earlier
offset (the offset Rust's `find` reports). -/
def FirstOcc (l pat : List Nat) (o : Nat) : Prop :=
  matchesAt l pat o = true ∧ ∀ o2, o2 < o → matchesAt l pat o2 = false

/-- No occurrence of `pat` anywhere in `l`. -/
def NoOcc (l pat : List Nat) : Prop :=
  ∀ o, o < l.length + 1 → matchesAt l pat o = false

instance (l pat : List Nat) (o : Nat) : Decidable (LastOcc l pat o) := by
  unfold LastOcc
  infer_instance

instance (l pat : List Nat) (o : Nat) : Decidable (FirstOcc l pat o) := by
  unfold FirstOcc
  infer_instance

instance (l pat : List Nat) : Decidable (NoOcc l pat) := by
  unfold NoOcc
  infer_instance

/-- Rust's `char::to_digit(16)`: hexadecimal digit value of a character. -/
def toDigit16 (c : Char) : Option Nat :=
  if '0' ≤ c ∧ c ≤ '9' then some (c.toNat - 48)
  else if 'a' ≤ c ∧ c ≤ 'f' then some (c.toNat - 87)
  else if 'A' ≤ c ∧ c ≤ 'F' then some (c.toNat - 55)
  else none

/-- Digit-accumulation loop of Rust's `u8::from_str_radix(src, 16)`:
every character must be a base-16 digit and the accumulated value must
stay within `u8` range (checked multiply and add). -/
def parseHexDigits : List Char → Nat → Option Nat
  | [], acc => some acc
  | c :: rest, acc =>
    match toDigit16 c with
    | none => none
    | some d => if 255 < acc * 16 + d then none else parseHexDigits rest (acc * 16 + d)

/-- Rust's `u8::from_str_radix(src, 16)`: an optional leading `'+'`
followed by a non-empty sequence of base-16 digits, value at most 255.
The empty string, a bare `"+"`, any non-digit character, and `u8`
overflow are errors. -/
def from_str_radix16_u8 : List Char → Option Nat
  | [] => none
  | c :: rest =>
    if c = '+' then
      if rest = [] then none else parseHexDigits rest 0
    else parseHexDigits (c :: rest) 0

/-- Itertools' `chars().chunks(2)` as used by both byte-pair formatters:
consecutive two-character chunks, the final chunk a single character
when the length is odd. -/
def chunkPairs : List Char → List (List Char)
  | [] => []
  | [c] => [[c]]
  | c1 :: c2 :: rest => [c1, c2] :: chunkPairs rest

/-- Character of a single decimal digit value. -/
def digitChar (d : Nat) : Char := Char.ofNat (48 + d)

/-- Decimal rendering of a colour ordinal, as Rust's `Display` for `u8`
values (all at most 255, so three digits suffice). -/
def natDecimal (n : Nat) : List Char :=
  if n < 10 then [digitChar n]
  else if n < 100 then [digitChar (n / 10), digitChar (n % 10)]
  else [digitChar (n / 100), digitChar (n / 10 % 10), digitChar (n % 10)]

/-- Opening escape written by ansi_term's `Colour::Fixed(n).paint(...)`:
`ESC [ 3 8 ; 5 ; n m`. -/
def fixedEscape (n : Nat) : List Char :=
  '\x1b' :: '[' :: '3' :: '8' :: ';' :: '5' :: ';' :: (natDecimal n ++ ['m'])

/-- Reset escape written by ansi_term after painted content:
`ESC [ 0 m`. -/
def resetEscape : List Char := ['\x1b', '[', '0', 'm']

/-- Ansi_term's `Fixed(n).paint(s).to_string()`: the text `s` wrapped in
the 256-colour escape for palette index `n` and a reset escape. -/
def paintFixed (n : Nat) (s : List Char) : List Char :=
  fixedEscape n ++ s ++ resetEscape

/-- Rust's `char::is_ascii_digit`: the character range `'0'..='9'`. -/
def isAsciiDigit (c : Char) : Bool :=
  decide ('0' ≤ c) && decide (c ≤ '9')

/-- Chunk loop of `ANSIColouredLine::format_hash`
(src/ansi_coloured_line.rs): parse each chunk with
`u8::from_str_radix(_, 16)` and paint it with `Fixed(ordinal)`;
`collect` over `Result` stops at the first failing chunk. -/
def ansiChunks : List (List Char) → Option (List Char)
  | [] => some []
  | ch :: rest =>
    match from_str_radix16_u8 ch with
    | none => none
    | some ordinal =>
      match ansiChunks rest with
      | none => none
      | some tail => some (paintFixed ordinal ch ++ tail)

/-- Source: `ANSIColouredLine::format_hash` in src/ansi_coloured_line.rs:
chunk the characters in pairs, parse and paint every chunk, and fall
back to the original text if any chunk fails to parse. -/
def ANSIColouredLine.format_hash (hash : List Char) : List Char :=
  (ansiChunks (chunkPairs hash)).getD hash

/-- Chunk loop of `EcojiLine::format_hash` (src/ecoji_line.rs): parse
each chunk with `u8::from_str_radix(_, 16)`; `collect` over `Result`
stops at the first failing chunk. -/
def parseChunks : List (List Char) → Option (List Nat)
  | [] => some []
  | ch :: rest =>
    match from_str_radix16_u8 ch with
    | none => none
    | some v =>
      match parseChunks rest with
      | none => none
      | some vs => some (v :: vs)

/-- Source: `EcojiLine::format_hash` in src/ecoji_line.rs: chunk the
characters in pairs, parse every chunk to a byte, then encode the byte
sequence with `ecoji::encode_to_string`, falling back to the original
text if any chunk fails to parse or the encoder fails. The encoder is
the external ecoji crate (not part of this repository), abstracted here
as `enc`. -/
def EcojiLine.format_hash (enc : List Nat → Option (List Char)) (hash : List Char) : List Char :=
  match parseChunks (chunkPairs hash) with
  | none => hash
  | some bytes => (enc bytes).getD hash

/-- Source: `OnePasswordLine::format_hash` in src/onepassword_line.rs:
every ASCII digit is painted with `Fixed(4)`, every other character is
passed through; the per-character images are concatenated in order. -/
def OnePasswordLine.format_hash (hash : List Char) : List Char :=
  (hash.map fun character =>
    if isAsciiDigit character then paintFixed 4 [character] else [character]).flatten

/-- A select-graphic-rendition terminal escape sequence: `ESC [`,
parameter characters (decimal digits and semicolons), then `m`. Both
escapes emitted by ansi_term have this shape. -/
def IsSGR (e : List Char) : Prop :=
  ∃ ps, (∀ c ∈ ps, (48 ≤ c.toNat ∧ c.toNat ≤ 57) ∨ c = ';') ∧
    e = '\x1b' :: '[' :: (ps ++ ['m'])

/-- Relation stating that `out` is `x` with terminal escape sequences
inserted between (and around) its characters: every character of `x`
appears in `out` in order and unchanged, and everything else in `out`
is an inserted escape sequence. -/
inductive Decorated : List Char → List Char → Prop where
  | nil : Decorated [] []
  | keep (c : Char) (out x : List Char) : Decorated out x → Decorated (c :: out) (c :: x)
  | esc (e out x : List Char) : IsSGR e → Decorated out x → Decorated (e ++ out) x

theorem matchesAt_succ_cons (b : Nat) (l pat : List Nat) (o : Nat) :
    matchesAt (b :: l) pat (o + 1) = matchesAt l pat o := by
  simp [matchesAt]

theorem matchesAt_le (l pat : List Nat) (o : Nat) (hp : pat ≠ [])
    (h : matchesAt l pat o = true) : o + pat.length ≤ l.length := by
  have he : (l.drop o).take pat.length = pat := of_decide_eq_true h
  have h1 : pat.length ≤ (l.drop o).length := by
    conv_lhs => rw [← he]
    rw [List.length_take]
    exact Nat.min_le_right _ _
  have h2 : (l.drop o).length = l.length - o := List.length_drop o l
  have h3 : 0 < pat.length := List.length_pos.mpr hp
  omega

theorem findSub_some (pat : List Nat) :
    ∀ (l : List Nat) (o : Nat), findSub l pat = some o →
      matchesAt l pat o = true ∧ ∀ o2, o2 < o → matchesAt l pat o2 = false := by
  intro l
  induction l with
  | nil =>
    intro o h
    unfold findSub at h
    cases hm : matchesAt [] pat 0 with
    | true =>
      rw [hm] at h
      simp at h
      subst h
      exact ⟨hm, fun o2 h2 => absurd h2 (Nat.not_lt_zero o2)⟩
    | false =>
      rw [hm] at h
      simp at h
  | cons b rest ih =>
    intro o h
    unfold findSub at h
    cases hm : matchesAt (b :: rest) pat 0 with
    | true =>
      rw [hm] at h
      simp at h
      subst h
      exact ⟨hm, fun o2 h2 => absurd h2 (Nat.not_lt_zero o2)⟩
    | false =>
      rw [hm] at h
      simp at h
      cases hr : findSub rest pat with
      | none =>
        rw [hr] at h
        simp at h
      | some m =>
        rw [hr] at h
        simp at h
        obtain ⟨hmm, hmin⟩ := ih m hr
        constructor
        · rw [← h, matchesAt_succ_cons]
          exact hmm
        · intro o2 h2
          cases o2 with
          | zero => exact hm
          | succ k =>
            rw [matchesAt_succ_cons]
            exact hmin k (by omega)

theorem findSub_none (pat : List Nat) :
    ∀ l : List Nat, findSub l pat = none → ∀ o, matchesAt l pat o = false := by
  intro l
  induction l with
  | nil =>
    intro h o
    unfold findSub at h
    cases hm : matchesAt [] pat 0 with
    | true => rw [hm] at h; simp at h
    | false =>
      cases o with
      | zero => exact hm
      | succ k =>
        apply Bool.eq_false_iff.mpr
        intro hk
        have := of_decide_eq_true hk
        have hm2 := of_decide_eq_false hm
        simp [List.drop_nil] at this hm2
        exact hm2 this
  | cons b rest ih =>
    intro h o
    unfold findSub at h
    cases hm : matchesAt (b :: rest) pat 0 with
    | true => rw [hm] at h; simp at h
    | false =>
      rw [hm] at h
      simp at h
      cases hr : findSub rest pat with
      | some m => rw [hr] at h; simp at h
      | none =>
        cases o with
        | zero => exact hm
        | succ k =>
          rw [matchesAt_succ_cons]
          exact ih hr k

theorem rfindSub_none (pat : List Nat) :
    ∀ l : List Nat, rfindSub l pat = none → ∀ o, matchesAt l pat o = false := by
  intro l
  induction l with
  | nil =>
    intro h o
    unfold rfindSub at h
    cases hm : matchesAt [] pat 0 with
    | true => rw [hm] at h; simp at h
    | false =>
      cases o with
      | zero => exact hm
      | succ k =>
        apply Bool.eq_false_iff.mpr
        intro hk
        have := of_decide_eq_true hk
        have hm2 := of_decide_eq_false hm
        simp [List.drop_nil] at this hm2
        exact hm2 this
  | cons b rest ih =>
    intro h o
    unfold rfindSub at h
    cases hr : rfindSub rest pat with
    | some m => rw [hr] at h; simp at h
    | none =>
      rw [hr] at h
      cases hm : matchesAt (b :: rest) pat 0 with
      | true => rw [hm] at h; simp at h
      | false =>
        cases o with
        | zero => exact hm
        | succ k =>
          rw [matchesAt_succ_cons]
          exact ih hr k

theorem rfindSub_some (pat : List Nat) (hp : pat ≠ []) :
    ∀ (l : List Nat) (o : Nat), rfindSub l pat = some o →
      matchesAt l pat o = true ∧ ∀ o2, o < o2 → matchesAt l pat o2 = false := by
  intro l
  induction l with
  | nil =>
    intro o h
    unfold rfindSub at h
    cases hm : matchesAt [] pat 0 with
    | true =>
      exfalso
      have := of_decide_eq_true hm
      simp at this
      exact hp this
    | false => rw [hm] at h; simp at h
  | cons b rest ih =>
    intro o h
    unfold rfindSub at h
    cases hr : rfindSub rest pat with
    | some m =>
      rw [hr] at h
      simp at h
      obtain ⟨hmm, hmax⟩ := ih m hr
      constructor
      · rw [← h, matchesAt_succ_cons]
        exact hmm
      · intro o2 h2
        cases o2 with
        | zero => omega
        | succ k =>
          rw [matchesAt_succ_cons]
          exact hmax k (by omega)
    | none =>
      rw [hr] at h
      cases hm : matchesAt (b :: rest) pat 0 with
      | true =>
        rw [hm] at h
        simp at h
        subst h
        refine ⟨hm, fun o2 h2 => ?_⟩
        cases o2 with
        | zero => omega
        | succ k =>
          rw [matchesAt_succ_cons]
          exact rfindSub_none pat rest hr k
      | false => rw [hm] at h; simp at h

theorem rfindSub_of_lastOcc (l pat : List Nat) (o : Nat) (hp : pat ≠ [])
    (h : LastOcc l pat o) : rfindSub l pat = some o := by
  cases hr : rfindSub l pat with
  | none =>
    have hc := rfindSub_none pat l hr o
    simp [h.1] at hc
  | some m =>
    obtain ⟨hm, hmax⟩ := rfindSub_some pat hp l m hr
    have hbound := matchesAt_le l pat m hp hm
    rcases Nat.lt_trichotomy o m with hlt | heq | hgt
    · have hc := h.2 m (by omega) hlt
      simp [hc] at hm
    · rw [heq]
    · have hc := hmax o hgt
      simp [h.1] at hc

theorem findSub_of_firstOcc (l pat : List Nat) (o : Nat)
    (h : FirstOcc l pat o) : findSub l pat = some o := by
  cases hf : findSub l pat with
  | none =>
    have hc := findSub_none pat l hf o
    simp [h.1] at hc
  | some m =>
    obtain ⟨hm, hmin⟩ := findSub_some pat l m hf
    rcases Nat.lt_trichotomy o m with hlt | heq | hgt
    · have hc := hmin o hlt
      simp [h.1] at hc
    · rw [heq]
    · have hc := h.2 m hgt
      simp [hc] at hm

theorem rfindSub_none_of_noOcc (l pat : List Nat) (hp : pat ≠ [])
    (h : NoOcc l pat) : rfindSub l pat = none := by
  cases hr : rfindSub l pat with
  | none => rfl
  | some m =>
    obtain ⟨hm, _⟩ := rfindSub_some pat hp l m hr
    have hbound := matchesAt_le l pat m hp hm
    have hc := h m (by omega)
    simp [hc] at hm

theorem findSub_none_of_noOcc (l pat : List Nat) (hp : pat ≠ [])
    (h : NoOcc l pat) : findSub l pat = none := by
  cases hf : findSub l pat with
  | none => rfl
  | some m =>
    obtain ⟨hm, _⟩ := findSub_some pat l m hf
    have hbound := matchesAt_le l pat m hp hm
    have hc := h m (by omega)
    simp [hc] at hm

theorem fromContents_trichotomy (c : List Nat) :
    (∃ s, FormattableLine.fromContents c = ⟨c, some s, none⟩) ∨
      (∃ e, FormattableLine.fromContents c = ⟨c, none, some e⟩) ∨
      FormattableLine.fromContents c = ⟨c, none, none⟩ := by
  unfold FormattableLine.fromContents
  cases find_bsd_tag_line c with
  | some s => exact Or.inl ⟨s, rfl⟩
  | none =>
    cases find_sum_prefixed_line c with
    | some e => exact Or.inr (Or.inl ⟨e, rfl⟩)
    | none => exact Or.inr (Or.inr rfl)

/-- C1: for every input line, classification follows the two-rule
algorithm with BSD precedence: when the 3-byte literal `" = "` occurs,
the digest span starts 3 bytes after its last occurrence and runs to
the end of the line; otherwise, when two consecutive spaces occur, the
span runs from the start of the line to the first such occurrence;
otherwise no span is identified and the line passes through. -/
theorem claim_classifier_two_rule (c : List Nat) :
    (∀ o, LastOcc c bsdNeedle o →
      FormattableLine.fromContents c = ⟨c, some (o + 3), none⟩) ∧
    (NoOcc c bsdNeedle → ∀ o, FirstOcc c doubleSpace o →
      FormattableLine.fromContents c = ⟨c, none, some o⟩) ∧
    (NoOcc c bsdNeedle → NoOcc c doubleSpace →
      FormattableLine.fromContents c = ⟨c, none, none⟩) := by
  refine ⟨?_, ?_, ?_⟩
  · intro o h
    have hr : rfindSub c bsdNeedle = some o :=
      rfindSub_of_lastOcc c bsdNeedle o (by simp [bsdNeedle]) h
    simp [FormattableLine.fromContents, find_bsd_tag_line, hr]
  · intro hb o h
    have hr : rfindSub c bsdNeedle = none :=
      rfindSub_none_of_noOcc c bsdNeedle (by simp [bsdNeedle]) hb
    have hf : findSub c doubleSpace = some o := findSub_of_firstOcc c doubleSpace o h
    simp [FormattableLine.fromContents, find_bsd_tag_line, find_sum_prefixed_line, hr, hf]
  · intro hb hd
    have hr : rfindSub c bsdNeedle = none :=
      rfindSub_none_of_noOcc c bsdNeedle (by simp [bsdNeedle]) hb
    have hf : findSub c doubleSpace = none :=
      findSub_none_of_noOcc c doubleSpace (by simp [doubleSpace]) hd
    simp [FormattableLine.fromContents, find_bsd_tag_line, find_sum_prefixed_line, hr, hf]

/-- Witness for C1 on the line `"x = y"` (bytes 120 32 61 32 121): the
last occurrence of `" = "` is at byte offset 1 and classification marks
the suffix from byte 4. -/
theorem claim_classifier_two_rule_witness :
    FormattableLine.fromContents [120, 32, 61, 32, 121] =
      ⟨[120, 32, 61, 32, 121], some 4, none⟩ :=
  (claim_classifier_two_rule [120, 32, 61, 32, 121]).1 1 (by decide)

/-- C5: for every input string, the constructed `FormattableLine` has at
most one of `formattable_start` and `formattable_end` set. -/
theorem claim_span_mutual_exclusion (c : List Nat) :
    (FormattableLine.fromContents c).formattable_start = none ∨
      (FormattableLine.fromContents c).formattable_end = none := by
  rcases fromContents_trichotomy c with ⟨s, hL⟩ | ⟨e, hL⟩ | hL <;> rw [hL]
  · exact Or.inr rfl
  · exact Or.inl rfl
  · exact Or.inl rfl

/-- C4: for every line and any formatter, assembly obeys the shared
contract: with no span marker the output is the contents verbatim; with
`formattable_start = s` it is `contents[0..s] ++ fmt (contents[s..])`;
with `formattable_end = e` it is `fmt (contents[0..e]) ++ contents[e..]`. -/
theorem claim_assembly_contract (fmt : List Nat → List Nat) (c : List Nat) :
    ((FormattableLine.fromContents c).formattable_start = none →
      (FormattableLine.fromContents c).formattable_end = none →
      to_formatted fmt (FormattableLine.fromContents c) = c) ∧
    (∀ s, (FormattableLine.fromContents c).formattable_start = some s →
      to_formatted fmt (FormattableLine.fromContents c) = c.take s ++ fmt (c.drop s)) ∧
    (∀ e, (FormattableLine.fromContents c).formattable_end = some e →
      to_formatted fmt (FormattableLine.fromContents c) = fmt (c.take e) ++ c.drop e) := by
  rcases fromContents_trichotomy c with ⟨s, hL⟩ | ⟨e, hL⟩ | hL <;> rw [hL]
  · refine ⟨?_, ?_, ?_⟩
    · intro h1
      simp at h1
    · intro s2 h2
      simp at h2
      subst h2
      have hdl : (c.drop s).take (c.length - s) = c.drop s :=
        List.take_of_length_le (by rw [List.length_drop])
      simp [to_formatted, hdl, List.drop_length]
    · intro e2 h2
      simp at h2
  · refine ⟨?_, ?_, ?_⟩
    · intro h1 h2
      simp at h2
    · intro s2 h2
      simp at h2
    · intro e2 h2
      simp at h2
      subst h2
      simp [to_formatted]
  · refine ⟨?_, ?_, ?_⟩
    · intro h1 h2
      simp [to_formatted]
    · intro s2 h2
      simp at h2
    · intro e2 h2
      simp at h2

/-- Witness for C4 on the line `"c  d"` (bytes 99 32 32 100), classified
with `formattable_end = 1`: the assembled output formats the prefix of
one byte and keeps the rest verbatim. -/
theorem claim_assembly_contract_witness :
    to_formatted (fun bs => bs ++ bs) (FormattableLine.fromContents [99, 32, 32, 100]) =
      ([99] ++ [99]) ++ [32, 32, 100] :=
  (claim_assembly_contract (fun bs => bs ++ bs) [99, 32, 32, 100]).2.2 1 (by decide)

theorem utf8Bytes_ne_nil (c : Char) : utf8Bytes c ≠ [] := by
  simp only [utf8Bytes]
  split_ifs <;> simp

theorem utf8Bytes_head_not_cont (c : Char) (b : Nat)
    (h : (utf8Bytes c)[0]? = some b) : ¬contByte b := by
  simp only [utf8Bytes] at h
  split_ifs at h with h1 h2 h3 <;> simp at h <;> unfold contByte <;> omega

theorem utf8Bytes_all_ge (c : Char) (hlen : 2 ≤ (utf8Bytes c).length)
    (j b : Nat) (h : (utf8Bytes c)[j]? = some b) : 128 ≤ b := by
  simp only [utf8Bytes] at h hlen
  split_ifs at h hlen with h1 h2 h3
  · simp at hlen
  · rcases j with _ | _ | j <;> simp at h <;> omega
  · rcases j with _ | _ | _ | j <;> simp at h <;> omega
  · rcases j with _ | _ | _ | _ | j <;> simp at h <;> omega

theorem encodeUtf8_head_not_cont (s : List Char) (b : Nat)
    (h : (encodeUtf8 s)[0]? = some b) : ¬contByte b := by
  induction s with
  | nil => simp [encodeUtf8] at h
  | cons c rest ih =>
    have hne := utf8Bytes_ne_nil c
    have hpos : 0 < (utf8Bytes c).length := List.length_pos.mpr hne
    have hcons : encodeUtf8 (c :: rest) = utf8Bytes c ++ encodeUtf8 rest := by
      simp [encodeUtf8]
    rw [hcons, List.getElem?_append, if_pos hpos] at h
    exact utf8Bytes_head_not_cont c b h

theorem encodeUtf8_cont_pred (s : List Char) :
    ∀ p b, (encodeUtf8 s)[p + 1]? = some b → contByte b →
      ∃ a, (encodeUtf8 s)[p]? = some a ∧ 128 ≤ a := by
  induction s with
  | nil => intro p b h _; simp [encodeUtf8] at h
  | cons c rest ih =>
    intro p b h hcont
    have hcons : encodeUtf8 (c :: rest) = utf8Bytes c ++ encodeUtf8 rest := by
      simp [encodeUtf8]
    rw [hcons] at h
    rw [hcons]
    rcases Nat.lt_trichotomy (p + 1) (utf8Bytes c).length with hlt | heq | hgt
    · rw [List.getElem?_append, if_pos hlt] at h
      have hlen : 2 ≤ (utf8Bytes c).length := by omega
      have hpl : p < (utf8Bytes c).length := by omega
      refine ⟨(utf8Bytes c).get ⟨p, hpl⟩, ?_, ?_⟩
      · rw [List.getElem?_append, if_pos hpl]
        simp [List.getElem?_eq_getElem hpl]
      · exact utf8Bytes_all_ge c hlen p _ (by simp [List.getElem?_eq_getElem hpl])
    · rw [List.getElem?_append, if_neg (by omega), heq, Nat.sub_self] at h
      exact absurd hcont (encodeUtf8_head_not_cont rest b h)
    · have hge : (utf8Bytes c).length ≤ p := by omega
      rw [List.getElem?_append, if_neg (by omega)] at h
      have harith : p + 1 - (utf8Bytes c).length = (p - (utf8Bytes c).length) + 1 := by omega
      rw [harith] at h
      obtain ⟨a, ha, hage⟩ := ih (p - (utf8Bytes c).length) b h hcont
      refine ⟨a, ?_, hage⟩
      rw [List.getElem?_append, if_neg (by omega)]
      exact ha

theorem matchesAt_getElem (l pat : List Nat) (o : Nat)
    (h : matchesAt l pat o = true) (i : Nat) (hi : i < pat.length) :
    l[o + i]? = pat[i]? := by
  have he : (l.drop o).take pat.length = pat := of_decide_eq_true h
  conv_rhs => rw [← he]
  rw [List.getElem?_take, if_pos hi, List.getElem?_drop]

/-- C9: for every input string, the offsets produced by classification
over the line's UTF-8 bytes — 3 past the last `" = "` occurrence, or
the first double-space position — are in-bounds, character-boundary
byte indices, so the slicing in `to_formatted` never fails. -/
theorem claim_offsets_safe (s : List Char) :
    (∀ o, find_bsd_tag_line (encodeUtf8 s) = some o →
      o ≤ (encodeUtf8 s).length ∧ isCharBoundary (encodeUtf8 s) o) ∧
    (∀ o, find_sum_prefixed_line (encodeUtf8 s) = some o →
      o ≤ (encodeUtf8 s).length ∧ isCharBoundary (encodeUtf8 s) o) := by
  constructor
  · intro o h
    unfold find_bsd_tag_line at h
    cases hr : rfindSub (encodeUtf8 s) bsdNeedle with
    | none => rw [hr] at h; simp at h
    | some m =>
      rw [hr] at h
      simp at h
      obtain ⟨hm, _⟩ := rfindSub_some bsdNeedle (by simp [bsdNeedle]) _ m hr
      have hb := matchesAt_le _ bsdNeedle m (by simp [bsdNeedle]) hm
      simp only [bsdNeedle, List.length_cons, List.length_nil] at hb
      have h32 : (encodeUtf8 s)[m + 2]? = some 32 := by
        have := matchesAt_getElem _ _ _ hm 2 (by simp [bsdNeedle])
        simpa [bsdNeedle] using this
      subst h
      constructor
      · omega
      · by_cases hend : m + 3 = (encodeUtf8 s).length
        · exact Or.inl hend
        · right
          have hlt : m + 3 < (encodeUtf8 s).length := by omega
          obtain ⟨b, hbb⟩ : ∃ b, (encodeUtf8 s)[m + 3]? = some b :=
            ⟨(encodeUtf8 s).get ⟨m + 3, hlt⟩, by simp [List.getElem?_eq_getElem hlt]⟩
          refine ⟨b, hbb, ?_⟩
          intro hcont
          obtain ⟨a, ha, hage⟩ :=
            encodeUtf8_cont_pred s (m + 2) b (by rw [← hbb]) hcont
          rw [h32] at ha
          simp at ha
          omega
  · intro o h
    unfold find_sum_prefixed_line at h
    obtain ⟨hm, _⟩ := findSub_some doubleSpace _ o h
    have hb := matchesAt_le _ doubleSpace o (by simp [doubleSpace]) hm
    simp only [doubleSpace, List.length_cons, List.length_nil] at hb
    have h32 : (encodeUtf8 s)[o]? = some 32 := by
      have := matchesAt_getElem _ _ _ hm 0 (by simp [doubleSpace])
      simpa [doubleSpace] using this
    constructor
    · omega
    · exact Or.inr ⟨32, h32, by decide⟩

/-- Witness for C9: on `"a = b"` the BSD offset 4 and on `"c  d"` the
double-space offset 1 are in-bounds character boundaries. -/
theorem claim_offsets_safe_witness :
    (4 ≤ (encodeUtf8 ['a', ' ', '=', ' ', 'b']).length ∧
      isCharBoundary (encodeUtf8 ['a', ' ', '=', ' ', 'b']) 4) ∧
    (1 ≤ (encodeUtf8 ['c', ' ', ' ', 'd']).length ∧
      isCharBoundary (encodeUtf8 ['c', ' ', ' ', 'd']) 1) :=
  ⟨(claim_offsets_safe ['a', ' ', '=', ' ', 'b']).1 4 (by decide),
    (claim_offsets_safe ['c', ' ', ' ', 'd']).2 1 (by decide)⟩

theorem parseHexDigits_le (l : List Char) :
    ∀ acc v, parseHexDigits l acc = some v → acc ≤ 255 → v ≤ 255 := by
  induction l with
  | nil =>
    intro acc v h hacc
    unfold parseHexDigits at h
    simp at h
    omega
  | cons c rest ih =>
    intro acc v h hacc
    unfold parseHexDigits at h
    split at h
    · simp at h
    · split at h
      · simp at h
      · rename_i d hd hov
        exact ih (acc * 16 + d) v h (by omega)

theorem from_str_radix16_u8_le (ch : List Char) (v : Nat)
    (h : from_str_radix16_u8 ch = some v) : v ≤ 255 := by
  cases ch with
  | nil => simp [from_str_radix16_u8] at h
  | cons c rest =>
    simp only [from_str_radix16_u8] at h
    split at h
    · split at h
      · simp at h
      · exact parseHexDigits_le rest 0 v h (by omega)
    · exact parseHexDigits_le (c :: rest) 0 v h (by omega)

theorem chunkPairs_flatten : ∀ l : List Char, (chunkPairs l).flatten = l
  | [] => rfl
  | [c] => rfl
  | c1 :: c2 :: rest => by
    simp [chunkPairs, chunkPairs_flatten rest]

theorem ansiChunks_some (chs : List (List Char))
    (h : ∀ ch ∈ chs, from_str_radix16_u8 ch ≠ none) :
    ansiChunks chs =
      some ((chs.map fun ch =>
        paintFixed ((from_str_radix16_u8 ch).getD 0) ch).flatten) := by
  induction chs with
  | nil => rfl
  | cons ch rest ih =>
    have hch := h ch (by simp)
    cases hv : from_str_radix16_u8 ch with
    | none => exact absurd hv hch
    | some v =>
      unfold ansiChunks
      rw [hv, ih (fun ch2 hm => h ch2 (by simp [hm]))]
      simp [hv]

theorem ansiChunks_none_iff (chs : List (List Char)) :
    ansiChunks chs = none ↔ ∃ ch ∈ chs, from_str_radix16_u8 ch = none := by
  induction chs with
  | nil => simp [ansiChunks]
  | cons ch rest ih =>
    unfold ansiChunks
    cases hv : from_str_radix16_u8 ch with
    | none => simp [hv]
    | some v =>
      cases hr : ansiChunks rest with
      | none =>
        simp only []
        constructor
        · intro _
          obtain ⟨ch2, hm, hn⟩ := ih.mp hr
          exact ⟨ch2, by simp [hm], hn⟩
        · intro _
          trivial
      | some tail =>
        simp only []
        constructor
        · intro hc
          simp at hc
        · rintro ⟨ch2, hm, hn⟩
          rcases List.mem_cons.mp hm with heq | hmem
          · rw [heq] at hn
            rw [hn] at hv
            simp at hv
          · have := ih.mpr ⟨ch2, hmem, hn⟩
            rw [this] at hr
            simp at hr

theorem parseChunks_some (chs : List (List Char))
    (h : ∀ ch ∈ chs, from_str_radix16_u8 ch ≠ none) :
    ∃ bs, parseChunks chs = some bs := by
  induction chs with
  | nil => exact ⟨[], rfl⟩
  | cons ch rest ih =>
    have hch := h ch (by simp)
    cases hv : from_str_radix16_u8 ch with
    | none => exact absurd hv hch
    | some v =>
      obtain ⟨bs, hbs⟩ := ih (fun ch2 hm => h ch2 (by simp [hm]))
      refine ⟨v :: bs, ?_⟩
      unfold parseChunks
      rw [hv, hbs]

theorem parseChunks_none_iff (chs : List (List Char)) :
    parseChunks chs = none ↔ ∃ ch ∈ chs, from_str_radix16_u8 ch = none := by
  induction chs with
  | nil => simp [parseChunks]
  | cons ch rest ih =>
    unfold parseChunks
    cases hv : from_str_radix16_u8 ch with
    | none => simp [hv]
    | some v =>
      cases hr : parseChunks rest with
      | none =>
        simp only []
        constructor
        · intro _
          obtain ⟨ch2, hm, hn⟩ := ih.mp hr
          exact ⟨ch2, by simp [hm], hn⟩
        · intro _
          trivial
      | some bs =>
        simp only []
        constructor
        · intro hc
          simp at hc
        · rintro ⟨ch2, hm, hn⟩
          rcases List.mem_cons.mp hm with heq | hmem
          · rw [heq] at hn
            rw [hn] at hv
            simp at hv
          · have := ih.mpr ⟨ch2, hmem, hn⟩
            rw [this] at hr
            simp at hr

theorem parseChunks_forall2 (chs : List (List Char)) :
    ∀ bs, parseChunks chs = some bs →
      List.Forall₂ (fun ch b => from_str_radix16_u8 ch = some b) chs bs := by
  induction chs with
  | nil =>
    intro bs h
    unfold parseChunks at h
    simp at h
    subst h
    exact List.Forall₂.nil
  | cons ch rest ih =>
    intro bs h
    unfold parseChunks at h
    cases hv : from_str_radix16_u8 ch with
    | none => rw [hv] at h; simp at h
    | some v =>
      rw [hv] at h
      cases hr : parseChunks rest with
      | none => rw [hr] at h; simp at h
      | some tailbs =>
        rw [hr] at h
        simp at h
        subst h
        exact List.Forall₂.cons hv (ih tailbs hr)

/-- C3: ANSI all-or-nothing — when every two-character chunk parses as a
byte, the result concatenates each chunk wrapped in the 256-colour
escape for its value plus a reset escape; when any chunk fails, the
original text is returned unchanged. -/
theorem claim_ansi_all_or_nothing (hash : List Char) :
    ((∀ ch ∈ chunkPairs hash, from_str_radix16_u8 ch ≠ none) →
      ANSIColouredLine.format_hash hash =
        ((chunkPairs hash).map fun ch =>
          paintFixed ((from_str_radix16_u8 ch).getD 0) ch).flatten) ∧
    ((∃ ch ∈ chunkPairs hash, from_str_radix16_u8 ch = none) →
      ANSIColouredLine.format_hash hash = hash) := by
  constructor
  · intro h
    unfold ANSIColouredLine.format_hash
    rw [ansiChunks_some (chunkPairs hash) h]
    rfl
  · intro h
    unfold ANSIColouredLine.format_hash
    rw [(ansiChunks_none_iff (chunkPairs hash)).mpr h]
    rfl

/-- Witness for C3 on `"b7"`: the chunk parses to 183 and the output is
the painted chunk. -/
theorem claim_ansi_all_or_nothing_witness :
    ANSIColouredLine.format_hash ['b', '7'] =
      ((chunkPairs ['b', '7']).map fun ch =>
        paintFixed ((from_str_radix16_u8 ch).getD 0) ch).flatten :=
  (claim_ansi_all_or_nothing ['b', '7']).1 (by decide)

/-- Counterexample to C2 as stated: `"c"` is an odd-length string whose
final (single-character) chunk the claim expects to fall into the
fallback path, yet the ANSI variant does not return it unchanged — the
single hex digit parses as 12 and is painted. -/
theorem claim_fallback_counterexample :
    ¬(ANSIColouredLine.format_hash ['c'] = ['c']) := by
  decide

/-- C2 (amended): both byte-pair variants return the input unchanged
whenever at least one chunk is rejected by the `u8` base-16 parse
(which accepts one or two hex digits, optionally preceded by `'+'`); a
trailing single hex character parses as a value 0–15 and therefore does
not trigger the fallback. -/
theorem claim_fallback_amended (x : List Char)
    (h : ∃ ch ∈ chunkPairs x, from_str_radix16_u8 ch = none) :
    ANSIColouredLine.format_hash x = x ∧
      ∀ enc, EcojiLine.format_hash enc x = x := by
  constructor
  · unfold ANSIColouredLine.format_hash
    rw [(ansiChunks_none_iff (chunkPairs x)).mpr h]
    rfl
  · intro enc
    unfold EcojiLine.format_hash
    rw [(parseChunks_none_iff (chunkPairs x)).mpr h]

/-- Witness for amended C2 on `"zz"` and a nontrivial encoder: both
variants pass the unparseable text through unchanged. -/
theorem claim_fallback_amended_witness :
    ANSIColouredLine.format_hash ['z', 'z'] = ['z', 'z'] ∧
      EcojiLine.format_hash (fun _ => some ['!']) ['z', 'z'] = ['z', 'z'] := by
  have h := claim_fallback_amended ['z', 'z'] (by decide)
  exact ⟨h.1, h.2 (fun _ => some ['!'])⟩

/-- C6: the Ecoji variant parses the two-character chunks to a byte
sequence in original order; on full success it returns the encoder's
output for exactly that byte sequence (the original text when the
encoder itself fails), and on any chunk parse failure it returns the
original text unchanged. -/
theorem claim_ecoji_structure (enc : List Nat → Option (List Char)) (hash : List Char) :
    (∀ bytes, parseChunks (chunkPairs hash) = some bytes →
      List.Forall₂ (fun ch b => from_str_radix16_u8 ch = some b) (chunkPairs hash) bytes ∧
      (∀ e, enc bytes = some e → EcojiLine.format_hash enc hash = e) ∧
      (enc bytes = none → EcojiLine.format_hash enc hash = hash)) ∧
    ((∃ ch ∈ chunkPairs hash, from_str_radix16_u8 ch = none) →
      EcojiLine.format_hash enc hash = hash) := by
  constructor
  · intro bytes hbytes
    refine ⟨parseChunks_forall2 (chunkPairs hash) bytes hbytes, ?_, ?_⟩
    · intro e he
      unfold EcojiLine.format_hash
      rw [hbytes]
      show (enc bytes).getD hash = e
      rw [he]
      rfl
    · intro he
      unfold EcojiLine.format_hash
      rw [hbytes]
      show (enc bytes).getD hash = hash
      rw [he]
      rfl
  · intro h
    unfold EcojiLine.format_hash
    rw [(parseChunks_none_iff (chunkPairs hash)).mpr h]

/-- Witness for C6 on `"05"` with an encoder mapping `[5]` to `"E"`:
the parse yields the byte 5 in order and the encoding is returned. -/
theorem claim_ecoji_structure_witness :
    List.Forall₂ (fun ch b => from_str_radix16_u8 ch = some b)
      (chunkPairs ['0', '5']) [5] ∧
      EcojiLine.format_hash (fun bs => if bs = [5] then some ['E'] else none)
        ['0', '5'] = ['E'] := by
  have h := (claim_ecoji_structure
    (fun bs => if bs = [5] then some ['E'] else none) ['0', '5']).1 [5] (by decide)
  exact ⟨h.1, h.2.1 ['E'] (by decide)⟩

theorem isAsciiDigit_iff (c : Char) :
    isAsciiDigit c = true ↔ (48 ≤ c.toNat ∧ c.toNat ≤ 57) := by
  unfold isAsciiDigit
  simp only [Bool.and_eq_true, decide_eq_true_eq]
  constructor
  · rintro ⟨h1, h2⟩
    exact ⟨h1, h2⟩
  · rintro ⟨h1, h2⟩
    exact ⟨h1, h2⟩

/-- C7: the digit-highlight variant maps each character independently —
ASCII decimal digits (code points 48–57) are wrapped in the fixed
colour-4 escape and a reset, all other characters pass through
unchanged — and concatenates the images in order; it is total, with no
fallback path. -/
theorem claim_onepassword_total (hash : List Char) :
    OnePasswordLine.format_hash hash =
      (hash.map fun c =>
        if 48 ≤ c.toNat ∧ c.toNat ≤ 57 then
          fixedEscape 4 ++ [c] ++ resetEscape
        else [c]).flatten := by
  unfold OnePasswordLine.format_hash
  congr 1
  apply List.map_congr_left
  intro c _
  by_cases hd : isAsciiDigit c = true
  · rw [if_pos hd, if_pos ((isAsciiDigit_iff c).mp hd)]
    rfl
  · rw [if_neg hd, if_neg (fun hp => hd ((isAsciiDigit_iff c).mpr hp))]

theorem decorated_refl : ∀ x : List Char, Decorated x x
  | [] => Decorated.nil
  | c :: rest => Decorated.keep c rest rest (decorated_refl rest)

theorem decorated_prepend (ch : List Char) (out x : List Char) (h : Decorated out x) :
    Decorated (ch ++ out) (ch ++ x) := by
  induction ch with
  | nil => exact h
  | cons c rest ih => exact Decorated.keep c _ _ ih

theorem digitChar_toNat (d : Nat) (h : d < 10) : (digitChar d).toNat = 48 + d := by
  interval_cases d <;> decide

theorem natDecimal_digits (n : Nat) (h : n < 1000) :
    ∀ c ∈ natDecimal n, 48 ≤ c.toNat ∧ c.toNat ≤ 57 := by
  intro c hc
  unfold natDecimal at hc
  split_ifs at hc with h1 h2
  · simp at hc
    subst hc
    rw [digitChar_toNat n h1]
    omega
  · simp at hc
    rcases hc with hc | hc <;> subst hc
    · rw [digitChar_toNat (n / 10) (by omega)]
      omega
    · rw [digitChar_toNat (n % 10) (by omega)]
      omega
  · simp at hc
    rcases hc with hc | hc | hc <;> subst hc
    · rw [digitChar_toNat (n / 100) (by omega)]
      omega
    · rw [digitChar_toNat (n / 10 % 10) (by omega)]
      omega
    · rw [digitChar_toNat (n % 10) (by omega)]
      omega

theorem isSGR_fixedEscape (n : Nat) (h : n < 1000) : IsSGR (fixedEscape n) := by
  refine ⟨'3' :: '8' :: ';' :: '5' :: ';' :: natDecimal n, ?_, ?_⟩
  · intro c hc
    simp at hc
    rcases hc with hc | hc | hc | hc | hc | hc
    · subst hc; left; decide
    · subst hc; left; decide
    · subst hc; right; rfl
    · subst hc; left; decide
    · subst hc; right; rfl
    · exact Or.inl (natDecimal_digits n h c hc)
  · simp [fixedEscape]

theorem isSGR_resetEscape : IsSGR resetEscape := by
  refine ⟨['0'], ?_, rfl⟩
  intro c hc
  simp at hc
  subst hc
  left
  decide

theorem decorated_paint (n : Nat) (hn : n < 1000) (ch out x : List Char)
    (h : Decorated out x) : Decorated (paintFixed n ch ++ out) (ch ++ x) := by
  have h1 : Decorated (resetEscape ++ out) x :=
    Decorated.esc _ _ _ isSGR_resetEscape h
  have h2 : Decorated (ch ++ (resetEscape ++ out)) (ch ++ x) :=
    decorated_prepend ch _ _ h1
  have h3 : Decorated (fixedEscape n ++ (ch ++ (resetEscape ++ out))) (ch ++ x) :=
    Decorated.esc _ _ _ (isSGR_fixedEscape n hn) h2
  have heq : paintFixed n ch ++ out = fixedEscape n ++ (ch ++ (resetEscape ++ out)) := by
    simp [paintFixed, List.append_assoc]
  rw [heq]
  exact h3

theorem ansiChunks_decorated (chs : List (List Char)) :
    ∀ out, ansiChunks chs = some out → Decorated out chs.flatten := by
  induction chs with
  | nil =>
    intro out h
    unfold ansiChunks at h
    simp at h
    subst h
    exact Decorated.nil
  | cons ch rest ih =>
    intro out h
    unfold ansiChunks at h
    cases hv : from_str_radix16_u8 ch with
    | none => rw [hv] at h; simp at h
    | some v =>
      rw [hv] at h
      cases hr : ansiChunks rest with
      | none => rw [hr] at h; simp at h
      | some tail =>
        rw [hr] at h
        simp at h
        subst h
        have hle : v ≤ 255 := from_str_radix16_u8_le ch v hv
        simp only [List.flatten_cons]
        exact decorated_paint v (by omega) ch tail rest.flatten (ih tail hr)

theorem onepassword_decorated (x : List Char) :
    Decorated (OnePasswordLine.format_hash x) x := by
  induction x with
  | nil => exact Decorated.nil
  | cons c rest ih =>
    unfold OnePasswordLine.format_hash at ih ⊢
    simp only [List.map_cons, List.flatten_cons]
    by_cases hd : isAsciiDigit c = true
    · rw [if_pos hd]
      exact decorated_paint 4 (by omega) [c] _ rest ih
    · rw [if_neg hd]
      exact Decorated.keep c _ rest ih

/-- C8: the ANSI-colour and digit-highlight variants only decorate, never
alter, the digest text: the output is exactly the input with terminal
escape sequences inserted, so removing the inserted escapes recovers
the input character-for-character, in order. -/
theorem claim_decoration_preserves_text (x : List Char) :
    Decorated (ANSIColouredLine.format_hash x) x ∧
      Decorated (OnePasswordLine.format_hash x) x := by
  refine ⟨?_, onepassword_decorated x⟩
  unfold ANSIColouredLine.format_hash
  cases h : ansiChunks (chunkPairs x) with
  | none => exact decorated_refl x
  | some out =>
    have hd := ansiChunks_decorated (chunkPairs x) out h
    rw [chunkPairs_flatten] at hd
    exact hd

theorem toDigit16_lt (c : Char) (d : Nat) (h : toDigit16 c = some d) : d < 16 := by
  unfold toDigit16 at h
  split_ifs at h with h1 h2 h3 <;> simp at h <;> subst h
  · have k1 : 48 ≤ c.toNat := h1.1
    have k2 : c.toNat ≤ 57 := h1.2
    omega
  · have k1 : 97 ≤ c.toNat := h2.1
    have k2 : c.toNat ≤ 102 := h2.2
    omega
  · have k1 : 65 ≤ c.toNat := h3.1
    have k2 : c.toNat ≤ 70 := h3.2
    omega

theorem hexChar_ne_plus (c : Char) (h : toDigit16 c ≠ none) : ¬(c = '+') := by
  intro he
  subst he
  exact h (by decide)

theorem parse_single (c : Char) (d : Nat) (h : toDigit16 c = some d) :
    from_str_radix16_u8 [c] = some d := by
  have hlt := toDigit16_lt c d h
  simp only [from_str_radix16_u8]
  rw [if_neg (hexChar_ne_plus c (by rw [h]; simp))]
  have hov : ¬(255 < 0 * 16 + d) := by omega
  simp [parseHexDigits, h, hov]
  omega

theorem parse_pair (c1 c2 : Char) (d1 d2 : Nat) (h1 : toDigit16 c1 = some d1)
    (h2 : toDigit16 c2 = some d2) :
    from_str_radix16_u8 [c1, c2] = some (d1 * 16 + d2) := by
  have hlt1 := toDigit16_lt c1 d1 h1
  have hlt2 := toDigit16_lt c2 d2 h2
  simp only [from_str_radix16_u8]
  rw [if_neg (hexChar_ne_plus c1 (by rw [h1]; simp))]
  have hov1 : ¬(255 < 0 * 16 + d1) := by omega
  have hov2 : ¬(255 < d1 * 16 + d2) := by omega
  simp [parseHexDigits, h1, h2, hov1, hov2]
  omega

theorem chunkPairs_shape : ∀ l : List Char, ∀ ch ∈ chunkPairs l,
    (∃ c, ch = [c] ∧ c ∈ l) ∨ (∃ c1 c2, ch = [c1, c2] ∧ c1 ∈ l ∧ c2 ∈ l)
  | [] => by simp [chunkPairs]
  | [c] => by
    intro ch hch
    simp [chunkPairs] at hch
    subst hch
    exact Or.inl ⟨c, rfl, by simp⟩
  | c1 :: c2 :: rest => by
    intro ch hch
    simp only [chunkPairs, List.mem_cons] at hch
    rcases hch with heq | hmem
    · exact Or.inr ⟨c1, c2, heq, by simp, by simp⟩
    · rcases chunkPairs_shape rest ch hmem with ⟨c, hc, hcm⟩ | ⟨a, b, hab, ham, hbm⟩
      · exact Or.inl ⟨c, hc, by simp [hcm]⟩
      · exact Or.inr ⟨a, b, hab, by simp [ham], by simp [hbm]⟩

theorem chunkPairs_last_single : ∀ l : List Char, l.length % 2 = 1 →
    ∃ chs c, chunkPairs l = chs ++ [[c]]
  | [] => by simp
  | [c] => fun _ => ⟨[], c, rfl⟩
  | c1 :: c2 :: rest => by
    intro h
    have hr : rest.length % 2 = 1 := by
      simp at h
      omega
    obtain ⟨chs, c, hc⟩ := chunkPairs_last_single rest hr
    exact ⟨[c1, c2] :: chs, c, by simp [chunkPairs, hc]⟩

theorem all_hex_parse (l : List Char) (hhex : ∀ c ∈ l, toDigit16 c ≠ none) :
    ∀ ch ∈ chunkPairs l, from_str_radix16_u8 ch ≠ none := by
  intro ch hch
  rcases chunkPairs_shape l ch hch with ⟨c, hc, hcm⟩ | ⟨c1, c2, hab, h1m, h2m⟩
  · subst hc
    cases hd : toDigit16 c with
    | none => exact absurd hd (hhex c hcm)
    | some d =>
      rw [parse_single c d hd]
      simp
  · subst hab
    cases hd1 : toDigit16 c1 with
    | none => exact absurd hd1 (hhex c1 h1m)
    | some d1 =>
      cases hd2 : toDigit16 c2 with
      | none => exact absurd hd2 (hhex c2 h2m)
      | some d2 =>
        rw [parse_pair c1 c2 d1 d2 hd1 hd2]
        simp

/-- C10: for every odd-length string of hexadecimal characters, the
final one-character chunk parses as a base-16 value 0–15, so the ANSI
variant paints the string (returning something other than the input)
and the Ecoji variant proceeds to the encoding step — neither takes
the parse-fallback path. -/
theorem claim_final_nibble_parses (x : List Char) (hodd : x.length % 2 = 1)
    (hhex : ∀ c ∈ x, toDigit16 c ≠ none) :
    (∃ chs c, chunkPairs x = chs ++ [[c]] ∧
      ∃ v, from_str_radix16_u8 [c] = some v ∧ v < 16) ∧
    (∃ out, ansiChunks (chunkPairs x) = some out ∧
      ANSIColouredLine.format_hash x = out ∧ out ≠ x) ∧
    (∀ enc, ∃ bytes, parseChunks (chunkPairs x) = some bytes ∧
      EcojiLine.format_hash enc x = (enc bytes).getD x) := by
  have hall : ∀ ch ∈ chunkPairs x, from_str_radix16_u8 ch ≠ none := all_hex_parse x hhex
  refine ⟨?_, ?_, ?_⟩
  · obtain ⟨chs, c, hchs⟩ := chunkPairs_last_single x hodd
    have hmem : [c] ∈ chunkPairs x := by
      rw [hchs]
      simp
    have hcm : c ∈ x := by
      rcases chunkPairs_shape x [c] hmem with ⟨c2, hc2, hc2m⟩ | ⟨a, b, hab, _, _⟩
      · simp at hc2
        subst hc2
        exact hc2m
      · simp at hab
    cases hd : toDigit16 c with
    | none => exact absurd hd (hhex c hcm)
    | some d =>
      exact ⟨chs, c, hchs, d, parse_single c d hd, toDigit16_lt c d hd⟩
  · refine ⟨((chunkPairs x).map fun ch =>
      paintFixed ((from_str_radix16_u8 ch).getD 0) ch).flatten,
      ansiChunks_some (chunkPairs x) hall, ?_, ?_⟩
    · unfold ANSIColouredLine.format_hash
      rw [ansiChunks_some (chunkPairs x) hall]
      rfl
    · intro heq
      cases hx : x with
      | nil =>
        rw [hx] at hodd
        simp at hodd
      | cons c0 rest =>
        have hc0 : toDigit16 c0 ≠ none := hhex c0 (by rw [hx]; simp)
        have hhead : (((chunkPairs x).map fun ch =>
            paintFixed ((from_str_radix16_u8 ch).getD 0) ch).flatten).head? =
            some '\x1b' := by
          rw [hx]
          cases rest with
          | nil => rfl
          | cons c1 rest2 => rfl
        rw [heq, hx] at hhead
        simp at hhead
        rw [hhead] at hc0
        exact hc0 (by decide)
  · intro enc
    obtain ⟨bytes, hbytes⟩ := parseChunks_some (chunkPairs x) hall
    refine ⟨bytes, hbytes, ?_⟩
    unfold EcojiLine.format_hash
    rw [hbytes]

/-- Witness for C10 on the single hex character `"c"`: the ANSI variant
does not return it unchanged. -/
theorem claim_final_nibble_parses_witness :
    ANSIColouredLine.format_hash ['c'] ≠ ['c'] := by
  obtain ⟨out, _, h2, h3⟩ := (claim_final_nibble_parses ['c'] (by decide) (by decide)).2.1
  rw [h2]
  exact h3
